import Mathlib

/-!
Verification development for the Catination push server (`src/server.js`,
final patched variant; the legacy variant after the separator is embedded
separately where a claim refers to it).  JS strings are modelled as
`List Char`; machine time is `Nat` milliseconds; the FCM provider and the
Mongo token store are modelled at their interface boundary.
-/

namespace Catination

/-! ## Character-list string primitives (JS string operations) -/

/-- The newline character used by the SSE framing. -/
def NL : Char := '\n'

/-- JS `s.startsWith(p)`. -/
def startsWithL (s p : List Char) : Bool := p.isPrefixOf s

/-- JS `s.replace(pat, repl)`: replaces only the first occurrence of `pat`. -/
def replaceFirstL : List Char → List Char → List Char → List Char
  | [], pat, repl => if pat.isEmpty then repl else []
  | c :: rest, pat, repl =>
    if pat.isPrefixOf (c :: rest) then repl ++ (c :: rest).drop pat.length
    else c :: replaceFirstL rest pat repl

/-- JS `s.trim()`: strip whitespace from both ends. -/
def trimL (s : List Char) : List Char :=
  ((s.dropWhile Char.isWhitespace).reverse.dropWhile Char.isWhitespace).reverse

/-- JS `s.split("\n")`. -/
def splitLines : List Char → List (List Char)
  | [] => [[]]
  | c :: rest =>
    if c = NL then [] :: splitLines rest
    else
      match splitLines rest with
      | [] => [[c]]
      | l :: ls => (c :: l) :: ls

/-- The `data:` field tag of the SSE protocol. -/
def dataTag : List Char := "data:".data

/-- The `event:` field tag of the SSE protocol. -/
def eventTag : List Char := "event:".data

/-- The object-opening character checked by `line.startsWith("{")`. -/
def jsonOpen : List Char := "\x7b".data

/-! ## Stream frame parser (`startSSE` read loop, server.js patched 327-346)

`buffer.indexOf("\n\n")` / `buffer.slice(0, idx)` / `buffer.slice(idx + 2)`. -/

/-- Index of the first `"\n\n"` delimiter, as in JS `buffer.indexOf("\n\n")`. -/
def findDelim : List Char → Option Nat
  | [] => none
  | [_] => none
  | a :: b :: rest =>
    if a = NL ∧ b = NL then some 0
    else (findDelim (b :: rest)).map Nat.succ

/-- Fuel-driven worker for the frame splitting loop: repeatedly split off the
text before each `"\n\n"`, keep the trailing partial frame.  The fuel is
only a termination device; one delimiter consumes at least two characters,
so `s.length` fuel always suffices. -/
def splitFramesGo : Nat → List Char → List (List Char) × List Char
  | 0, s => ([], s)
  | fuel + 1, s =>
    match findDelim s with
    | none => ([], s)
    | some i =>
      let p := splitFramesGo fuel (s.drop (i + 2))
      (s.take i :: p.1, p.2)

/-- The frame-splitting loop of the SSE reader applied to one buffer content:
returns the complete frames split off and the remaining buffer. -/
def splitFrames (s : List Char) : List (List Char) × List Char :=
  splitFramesGo s.length s

/-- One iteration of the read loop: append the decoded chunk to the buffer,
then split off every complete frame (server.js patched 333-338). -/
def sseStep (st : List (List Char) × List Char) (chunk : List Char) :
    List (List Char) × List Char :=
  let p := splitFrames (st.2 ++ chunk)
  (st.1 ++ p.1, p.2)

/-- Feed a sequence of chunks through the read loop, starting from the empty
buffer; returns all emitted frames and the final buffer. -/
def processSSE (chunks : List (List Char)) : List (List Char) × List Char :=
  chunks.foldl sseStep ([], [])

/-! ## Frame field extraction

Patched loop (server.js 342-348): only the first `data:` line is used.
Legacy loop (server.js 712-719): every `data:` line is concatenated. -/

/-- Patched payload extraction:
`eventChunk.split("\n").find(l => l.startsWith("data:"))?.replace("data:", "").trim()`. -/
def extractPayloadPatched (frame : List Char) : Option (List Char) :=
  ((splitLines frame).find? (fun l => startsWithL l dataTag)).map
    (fun l => trimL (replaceFirstL l dataTag []))

/-- Whether the patched loop hands the frame's payload to `handleLeadEvent`
(server.js 348-352): it does whenever the extracted payload is non-empty and
begins with `{` (and then parses as JSON); no event-type condition appears. -/
def patchedInvokesHandler (frame : List Char) : Bool :=
  let ec := trimL frame
  if ec.isEmpty then false
  else
    match extractPayloadPatched ec with
    | none => false
    | some p => !p.isEmpty && startsWithL p jsonOpen

/-- One step of the legacy field loop (server.js 716-719): record the last
`event:` line, append every `data:` line's stripped content. -/
def legacyStep (acc : Option (List Char) × List Char) (line : List Char) :
    Option (List Char) × List Char :=
  let e := if startsWithL line eventTag then some (trimL (replaceFirstL line eventTag []))
           else acc.1
  let d := if startsWithL line dataTag then acc.2 ++ trimL (replaceFirstL line dataTag [])
           else acc.2
  (e, d)

/-- Legacy field extraction over a (trimmed) raw frame (server.js 712-719):
split into lines, trim each, fold up the `event:` type and the concatenated
`data:` payload. -/
def legacyFields (raw : List Char) : Option (List Char) × List Char :=
  ((splitLines raw).map trimL).foldl legacyStep (none, [])

/-- Whether the legacy loop hands the frame to `handleLeadEvent`
(server.js 721-731): payload non-empty, starts with `{`, and the logical
type — the `event:` field or the parsed payload's `type` field, the latter
supplied here as `parsedType` — equals `"lead"`. -/
def legacyInvokesHandler (raw : List Char) (parsedType : Option (List Char)) : Bool :=
  let f := legacyFields (trimL raw)
  !f.2.isEmpty && startsWithL (trimL f.2) jsonOpen &&
    (f.1 == some ("lead".data) || parsedType == some ("lead".data))

/-! ## chunkArray (server.js patched 97-103) -/

/-- Fuel-driven worker for `chunkArray` with chunk size `n + 1`; the source
loop `for (i = 0; i < arr.length; i += size)` advances by at least one
element per iteration, so `l.length` fuel always suffices. -/
def chunkGo : Nat → List α → Nat → List (List α)
  | 0, _, _ => []
  | _, [], _ => []
  | fuel + 1, x :: xs, n => (x :: xs.take n) :: chunkGo fuel (xs.drop n) n

/-- `chunkArray(arr, size)`: consecutive slices of at most `size` elements.
The source loop never terminates for `size = 0` (only `size = 500` is ever
used); the embedding returns `[]` in that unreachable case. -/
def chunkArray (l : List α) (size : Nat) : List (List α) :=
  match size with
  | 0 => []
  | n + 1 => chunkGo l.length l n

/-! ## Token normalization (server.js patched 140-143)

`Array.from(new Set((tokens || []).filter(Boolean)))`.  A JS array entry may
be `null`/`undefined` (modelled `none`) or a string; `Boolean` rejects
`none` and the empty string.  A JS `Set` keeps first-insertion order. -/

/-- JS `Boolean(e)` on a possibly-missing string entry. -/
def jsBool : Option String → Bool
  | none => false
  | some s => s != ""

/-- Insertion into a JS `Set` materialized as an ordered duplicate-free list. -/
def setAdd (s : List String) (x : String) : List String :=
  if x ∈ s then s else s ++ [x]

/-- The defensive normalization of `sendPushToTokens`: drop falsy entries,
deduplicate preserving first-occurrence order. -/
def normalizeTokens (tokens : Option (List (Option String))) : List String :=
  ((tokens.getD []).filterMap (fun e => if jsBool e then e else none)).foldl setAdd []

/-- Normalization as seen from a caller passing a plain string array. -/
def normalizeOf (l : List String) : List String :=
  normalizeTokens (some (l.map some))

/-- The batches over which `sendPushToTokens` iterates (server.js 203). -/
def sendBatches (tokens : Option (List (Option String))) : List (List String) :=
  chunkArray (normalizeTokens tokens) 500

/-- Same, for a caller passing a plain string array. -/
def sendBatchesOf (l : List String) : List (List String) :=
  chunkArray (normalizeOf l) 500

/-! ## Recipient resolution (`handleLeadEvent`, server.js patched 271-281) -/

/-- A device endpoint record as returned by
`Token.find({companyId, enabled: true})`, with `String(...)` coercions
already applied to the fields the handler reads. -/
structure TokenRecord where
  token : String
  role : String
  roleExperience : String

/-- One iteration of the `allTokens.forEach` body: skip falsy tokens, add
ADMIN tokens, add EMPLOYEE tokens with `roleExperience === "1"`. -/
def leadTargetStep (s : List String) (t : TokenRecord) : List String :=
  if t.token = "" then s
  else
    let s1 := if t.role = "ADMIN" then setAdd s t.token else s
    if t.role = "EMPLOYEE" ∧ t.roleExperience = "1" then setAdd s1 t.token else s1

/-- The deduplicated target list built by `handleLeadEvent`:
`Array.from(tokenSet).filter(Boolean)`. -/
def resolveTargets (records : List TokenRecord) : List String :=
  (records.foldl leadTargetStep []).filter (fun t => t != "")

/-! ## Lead dedup window (server.js patched 110-125) -/

/-- `RECENT_LEAD_TTL = 20 * 1000`. -/
def RECENT_LEAD_TTL : Nat := 20 * 1000

/-- `markLeadProcessed`: record `Date.now()` for a truthy lead id. -/
def markLeadProcessed (m : String → Option Nat) (leadId : String) (now : Nat) :
    String → Option Nat :=
  if leadId = "" then m else fun k => if k = leadId then some now else m k

/-- `isLeadRecentlyProcessed`: `false` for a falsy id or an absent entry;
`true` for an entry younger than the TTL; for an expired entry, delete it
and return `false`.  Returns the lookup result and the updated map. -/
def isLeadRecentlyProcessed (m : String → Option Nat) (leadId : String) (now : Nat) :
    Bool × (String → Option Nat) :=
  if leadId = "" then (false, m)
  else
    match m leadId with
    | none => (false, m)
    | some ts =>
      if now - ts < RECENT_LEAD_TTL then (true, m)
      else (false, fun k => if k = leadId then none else m k)

/-- The spec-level `shouldProcess` contract, realized at the call site
(server.js 259) as the negation of `isLeadRecentlyProcessed`. -/
def shouldProcessLead (m : String → Option Nat) (leadId : String) (now : Nat) : Bool :=
  !(isLeadRecentlyProcessed m leadId now).1

/-- The everywhere-empty dedup map (fresh process state). -/
def emptyLeads : String → Option Nat := fun _ => none

/-! ## Provider send results and token cleanup (server.js patched 205-237) -/

/-- One per-recipient result of `sendEachForMulticast`: a success flag and,
on failure, the provider's `error.code` (absent when `r.error` is unset). -/
structure SendResult where
  success : Bool
  errorCode : Option String

/-- The error classifications that trigger `Token.deleteOne` (server.js
224-227). -/
def isPrunableError (r : SendResult) : Bool :=
  !r.success &&
    (r.errorCode == some "messaging/invalid-registration-token" ||
     r.errorCode == some "messaging/registration-token-not-registered")

/-- The tokens for which the response loop (server.js 217-233) issues a
`Token.deleteOne` store-cleanup request: `responses.forEach((r, i))` with
`batch[i]`, one deletion per prunable failure, in response order.  The
deletion is fire-and-forget: its own failure is caught and logged. -/
def cleanupCalls : List String → List SendResult → List String
  | _, [] => []
  | [], _ => []
  | t :: ts, r :: rs =>
    if isPrunableError r then t :: cleanupCalls ts rs else cleanupCalls ts rs

/-- The observable outcome of one batch iteration of `sendPushToTokens`:
either the batch was sent and produced cleanup requests, or the whole-batch
send threw and the error was caught and logged (server.js 234-236). -/
inductive BatchResult where
  | sent : List String → BatchResult
  | failed : String → BatchResult
deriving DecidableEq, Repr

/-- The `for (const batch of batches)` loop of `sendPushToTokens` with the
provider call abstracted as `f`: every batch is attempted in order; a
throwing batch is recorded as `failed` and the loop continues.  The
function is total — `sendPushToTokens` never raises to its caller. -/
def runBatches (f : List String → Except String (List SendResult)) :
    List (List String) → List BatchResult
  | [] => []
  | b :: bs =>
    (match f b with
     | Except.error e => BatchResult.failed e
     | Except.ok rs => BatchResult.sent (cleanupCalls b rs)) :: runBatches f bs

/-! ## Reconnect backoff (server.js patched 302-304, 321-323, 363-366)

JS numbers are IEEE doubles; the embedding uses exact rationals, which
agrees with the source up to floating-point rounding in the products. -/

/-- `reconnectDelay = 2000` (server.js 303). -/
def reconnectFloor : ℚ := 2000

/-- `MAX_DELAY = 60000` (server.js 304). -/
def MAX_DELAY : ℚ := 60000

/-- The close/error path (server.js 365): the stored delay is multiplied by
1.4 and capped at `MAX_DELAY` before `setTimeout` is scheduled with the
already-multiplied value (server.js 366). -/
def reconnectOnClose (d : ℚ) : ℚ := min (d * (14 / 10)) MAX_DELAY

/-- The success path (server.js 323): the stored delay is reset to 2000. -/
def reconnectOnOpen : ℚ := 2000

/-- The stored delay after `k` consecutive close/error events following a
success reset; for `k ≥ 1` this is also the delay actually scheduled at the
`k`-th failure, because the multiplication happens before `setTimeout`. -/
def scheduledDelayAfter : Nat → ℚ
  | 0 => reconnectOnOpen
  | k + 1 => reconnectOnClose (scheduledDelayAfter k)

/-! ## Concrete data used by witnesses -/

/-- A concrete list of 1200 pairwise-distinct non-empty tokens. -/
def witnessTokens1200 : List String :=
  (List.range 1200).map (fun i => String.mk (List.replicate (i + 1) 'a'))

/-- A concrete batch response: one success, one failure with an
unregistered-token code, one failure with an unrelated code. -/
def demoResponses : List SendResult :=
  [⟨true, none⟩,
   ⟨false, some "messaging/invalid-registration-token"⟩,
   ⟨false, some "messaging/unknown-error"⟩]

/-! # Theorems -/

/-! ## C2: the lead dedup window -/

/-- C2: for a non-empty lead identifier with no pre-existing entry, the dedup
window satisfies the `shouldProcess` contract: a lookup before any mark
allows processing; after `markLeadProcessed`, a lookup strictly within the
20-second TTL reports the lead as recently processed (`shouldProcess`
false); a lookup at or after the TTL removes the entry and allows
processing again. -/
theorem dedupWindow_contract (m : String → Option Nat) (leadId : String) (t0 t1 t2 : Nat)
    (h0 : leadId ≠ "") (hm : m leadId = none)
    (h1 : t1 - t0 < RECENT_LEAD_TTL) (h2 : RECENT_LEAD_TTL ≤ t2 - t0) :
    shouldProcessLead m leadId t1 = true
    ∧ (isLeadRecentlyProcessed (markLeadProcessed m leadId t0) leadId t1).1 = true
    ∧ shouldProcessLead (markLeadProcessed m leadId t0) leadId t1 = false
    ∧ (isLeadRecentlyProcessed (markLeadProcessed m leadId t0) leadId t2).1 = false
    ∧ shouldProcessLead (markLeadProcessed m leadId t0) leadId t2 = true
    ∧ (isLeadRecentlyProcessed (markLeadProcessed m leadId t0) leadId t2).2 leadId = none := by
  have hmark : markLeadProcessed m leadId t0 leadId = some t0 := by
    simp [markLeadProcessed, h0]
  have h2' : ¬ (t2 - t0 < RECENT_LEAD_TTL) := by omega
  refine ⟨?_, ?_, ?_, ?_, ?_, ?_⟩ <;>
    simp [shouldProcessLead, isLeadRecentlyProcessed, h0, hm, hmark, h1, h2']

/-- Witness for `dedupWindow_contract` at a concrete fresh map, lead id and
clock values 0 / 19999 / 20000. -/
theorem dedupWindow_contract_witness :
    shouldProcessLead emptyLeads "L1" 19999 = true
    ∧ (isLeadRecentlyProcessed (markLeadProcessed emptyLeads "L1" 0) "L1" 19999).1 = true
    ∧ shouldProcessLead (markLeadProcessed emptyLeads "L1" 0) "L1" 19999 = false
    ∧ (isLeadRecentlyProcessed (markLeadProcessed emptyLeads "L1" 0) "L1" 20000).1 = false
    ∧ shouldProcessLead (markLeadProcessed emptyLeads "L1" 0) "L1" 20000 = true
    ∧ (isLeadRecentlyProcessed (markLeadProcessed emptyLeads "L1" 0) "L1" 20000).2 "L1" = none :=
  dedupWindow_contract emptyLeads "L1" 0 19999 20000 (by decide) rfl (by decide) (by decide)

/-! ## C5: reconnect backoff (corrected) -/

/-- C5 counterexample: the claim says the first reconnect after a failure is
scheduled 2000 ms out and the delay then grows by 1.5 (2000, 3000, 4500, …).
In the code the stored delay is multiplied by 1.4 and capped before
`setTimeout` is called with the multiplied value, so the first scheduled
delay after a reset is 2800 ms — neither 2000 nor a ×1.5 step. -/
theorem reconnect_backoff_counterexample :
    scheduledDelayAfter 1 = 2800
    ∧ scheduledDelayAfter 1 ≠ 2000
    ∧ scheduledDelayAfter 1 ≠ reconnectFloor * (3 / 2) := by
  have h : scheduledDelayAfter 1 = 2800 := by
    norm_num [scheduledDelayAfter, reconnectOnClose, reconnectOnOpen, MAX_DELAY,
      min_def]
  refine ⟨h, ?_, ?_⟩ <;> rw [h] <;> norm_num [reconnectFloor]

/-- C5 amended: the backoff starts from the stored floor 2000 ms; each
close/error multiplies the stored delay by 1.4 capped at 60000 ms and then
schedules the reconnect with the multiplied value, so the delay scheduled at
the k-th consecutive failure after a success reset is
min (2000 · 1.4^k, 60000) (exact arithmetic); a successful connection resets
the stored delay to the floor. -/
theorem reconnect_backoff_corrected (k : Nat) :
    scheduledDelayAfter k = min (reconnectFloor * (14 / 10) ^ k) MAX_DELAY
    ∧ reconnectOnOpen = reconnectFloor := by
  refine ⟨?_, rfl⟩
  induction k with
  | zero =>
    simp only [scheduledDelayAfter, reconnectOnOpen, reconnectFloor, pow_zero, mul_one]
    rw [min_eq_left (by norm_num [MAX_DELAY])]
  | succ k ih =>
    have hr : (0 : ℚ) ≤ 14 / 10 := by norm_num
    have hcap : MAX_DELAY ≤ MAX_DELAY * (14 / 10) :=
      le_mul_of_one_le_right (by norm_num [MAX_DELAY]) (by norm_num)
    calc scheduledDelayAfter (k + 1)
        = min (min (reconnectFloor * (14 / 10) ^ k) MAX_DELAY * (14 / 10)) MAX_DELAY := by
          rw [scheduledDelayAfter, ih, reconnectOnClose]
      _ = min (min (reconnectFloor * (14 / 10) ^ k * (14 / 10)) (MAX_DELAY * (14 / 10)))
            MAX_DELAY := by rw [min_mul_of_nonneg _ _ hr]
      _ = min (reconnectFloor * (14 / 10) ^ k * (14 / 10))
            (min (MAX_DELAY * (14 / 10)) MAX_DELAY) := by rw [min_assoc]
      _ = min (reconnectFloor * (14 / 10) ^ (k + 1)) MAX_DELAY := by
          rw [min_eq_right hcap, pow_succ, mul_assoc]

/-! ## JS `Set` insertion lemmas -/

lemma mem_setAdd {s : List String} {x y : String} :
    y ∈ setAdd s x ↔ y ∈ s ∨ y = x := by
  by_cases h : x ∈ s
  · simp only [setAdd, if_pos h]
    constructor
    · exact Or.inl
    · rintro (hy | rfl)
      · exact hy
      · exact h
  · simp [setAdd, if_neg h]

lemma nodup_setAdd {s : List String} {x : String} (h : s.Nodup) :
    (setAdd s x).Nodup := by
  by_cases hx : x ∈ s
  · simpa [setAdd, if_pos hx]
  · simp only [setAdd, if_neg hx]
    exact List.Nodup.append h (List.nodup_singleton x) (by simpa using hx)

lemma mem_foldl_setAdd {l : List String} {s : List String} {y : String} :
    y ∈ l.foldl setAdd s ↔ y ∈ s ∨ y ∈ l := by
  induction l generalizing s with
  | nil => simp
  | cons x xs ih =>
    simp only [List.foldl_cons, ih, mem_setAdd, List.mem_cons]
    tauto

lemma nodup_foldl_setAdd {l : List String} {s : List String} (h : s.Nodup) :
    (l.foldl setAdd s).Nodup := by
  induction l generalizing s with
  | nil => simpa
  | cons x xs ih => exact ih (nodup_setAdd h)

lemma foldl_setAdd_eq_append {l : List String} {s : List String}
    (hd : ∀ x ∈ l, x ∉ s) (hl : l.Nodup) : l.foldl setAdd s = s ++ l := by
  induction l generalizing s with
  | nil => simp
  | cons x xs ih =>
    have hx : x ∉ s := hd x (List.mem_cons_self x xs)
    have hstep : setAdd s x = s ++ [x] := by simp [setAdd, hx]
    rw [List.foldl_cons, hstep, ih, List.append_assoc]
    · simp
    · intro y hy
      simp only [List.mem_append, List.mem_singleton]
      rintro (hys | rfl)
      · exact hd y (List.mem_cons_of_mem x hy) hys
      · exact (List.nodup_cons.mp hl).1 hy
    · exact (List.nodup_cons.mp hl).2

/-! ## C1: recipient resolution in `handleLeadEvent` -/

lemma mem_leadTargetStep {s : List String} {t : TokenRecord} {x : String} :
    x ∈ leadTargetStep s t ↔
      x ∈ s ∨ (t.token = x ∧ t.token ≠ "" ∧
        (t.role = "ADMIN" ∨ (t.role = "EMPLOYEE" ∧ t.roleExperience = "1"))) := by
  unfold leadTargetStep
  by_cases h0 : t.token = ""
  · simp [h0]
  · simp only [if_neg h0]
    by_cases hA : t.role = "ADMIN"
    · have hE : ¬ (t.role = "EMPLOYEE" ∧ t.roleExperience = "1") := by
        rintro ⟨hE, -⟩; rw [hA] at hE; exact absurd hE (by decide)
      simp only [if_pos hA, if_neg hE, mem_setAdd]
      constructor
      · rintro (hs | rfl)
        · exact Or.inl hs
        · exact Or.inr ⟨rfl, h0, Or.inl hA⟩
      · rintro (hs | ⟨rfl, -, -⟩)
        · exact Or.inl hs
        · exact Or.inr rfl
    · simp only [if_neg hA]
      by_cases hE : t.role = "EMPLOYEE" ∧ t.roleExperience = "1"
      · simp only [if_pos hE, mem_setAdd]
        constructor
        · rintro (hs | rfl)
          · exact Or.inl hs
          · exact Or.inr ⟨rfl, h0, Or.inr hE⟩
        · rintro (hs | ⟨rfl, -, -⟩)
          · exact Or.inl hs
          · exact Or.inr rfl
      · simp only [if_neg hE]
        constructor
        · exact Or.inl
        · rintro (hs | ⟨rfl, -, hA' | hE'⟩)
          · exact hs
          · exact absurd hA' hA
          · exact absurd hE' hE

lemma nodup_leadTargetStep {s : List String} {t : TokenRecord} (h : s.Nodup) :
    (leadTargetStep s t).Nodup := by
  unfold leadTargetStep
  split
  · exact h
  · split <;> split <;> first
      | exact nodup_setAdd (nodup_setAdd h)
      | exact nodup_setAdd h
      | exact h

lemma mem_foldl_leadTargetStep {records : List TokenRecord} {s : List String} {x : String} :
    x ∈ records.foldl leadTargetStep s ↔
      x ∈ s ∨ ∃ t ∈ records, t.token = x ∧ t.token ≠ "" ∧
        (t.role = "ADMIN" ∨ (t.role = "EMPLOYEE" ∧ t.roleExperience = "1")) := by
  induction records generalizing s with
  | nil => simp
  | cons r rs ih =>
    simp only [List.foldl_cons, ih, mem_leadTargetStep, List.mem_cons]
    constructor
    · rintro ((hs | hr) | ⟨t, ht, hrest⟩)
      · exact Or.inl hs
      · exact Or.inr ⟨r, Or.inl rfl, hr⟩
      · exact Or.inr ⟨t, Or.inr ht, hrest⟩
    · rintro (hs | ⟨t, rfl | ht, hrest⟩)
      · exact Or.inl (Or.inl hs)
      · exact Or.inl (Or.inr hrest)
      · exact Or.inr ⟨t, ht, hrest⟩

lemma nodup_foldl_leadTargetStep {records : List TokenRecord} {s : List String}
    (h : s.Nodup) : (records.foldl leadTargetStep s).Nodup := by
  induction records generalizing s with
  | nil => simpa
  | cons r rs ih => exact ih (nodup_leadTargetStep h)

/-- C1: over any fetched endpoint list whose records carry non-empty tokens,
`handleLeadEvent`'s resolution includes a token exactly when some record
holding it has role `ADMIN`, or role `EMPLOYEE` with `roleExperience = "1"`;
the result is duplicate-free; and on the spec's four-endpoint example
exactly the first two tokens are returned, in order. -/
theorem handleLeadEvent_targets (records : List TokenRecord)
    (h : ∀ t ∈ records, t.token ≠ "") :
    ((resolveTargets records).Nodup
    ∧ (∀ x, x ∈ resolveTargets records ↔
        ∃ t ∈ records, t.token = x ∧
          (t.role = "ADMIN" ∨ (t.role = "EMPLOYEE" ∧ t.roleExperience = "1"))))
    ∧ resolveTargets
        [⟨"tA", "ADMIN", "0"⟩, ⟨"tE", "EMPLOYEE", "1"⟩,
         ⟨"tX", "EMPLOYEE", "0"⟩, ⟨"tM", "MANAGER", "1"⟩] = ["tA", "tE"] := by
  refine ⟨⟨List.Nodup.filter _ (nodup_foldl_leadTargetStep List.nodup_nil), ?_⟩, by decide⟩
  intro x
  simp only [resolveTargets, List.mem_filter, mem_foldl_leadTargetStep,
    List.not_mem_nil, false_or, bne_iff_ne, ne_eq]
  constructor
  · rintro ⟨⟨t, ht, htok, -, hrole⟩, -⟩
    exact ⟨t, ht, htok, hrole⟩
  · rintro ⟨t, ht, htok, hrole⟩
    have hne : x ≠ "" := htok ▸ h t ht
    exact ⟨⟨t, ht, htok, htok ▸ hne, hrole⟩, by simpa using hne⟩

/-- Witness for `handleLeadEvent_targets` at the spec's four-endpoint
example. -/
theorem handleLeadEvent_targets_witness :
    resolveTargets
      [⟨"tA", "ADMIN", "0"⟩, ⟨"tE", "EMPLOYEE", "1"⟩,
       ⟨"tX", "EMPLOYEE", "0"⟩, ⟨"tM", "MANAGER", "1"⟩] = ["tA", "tE"] :=
  (handleLeadEvent_targets
    [⟨"tA", "ADMIN", "0"⟩, ⟨"tE", "EMPLOYEE", "1"⟩,
     ⟨"tX", "EMPLOYEE", "0"⟩, ⟨"tM", "MANAGER", "1"⟩] (by decide)).2

/-! ## chunkArray lemmas -/

lemma chunkGo_nil (fuel n : Nat) : chunkGo fuel ([] : List α) n = [] := by
  cases fuel <;> rfl

lemma chunkGo_flatten (fuel : Nat) (l : List α) (n : Nat) (h : l.length ≤ fuel) :
    (chunkGo fuel l n).flatten = l := by
  induction fuel generalizing l with
  | zero =>
    have : l = [] := List.eq_nil_of_length_eq_zero (Nat.le_zero.mp h)
    simp [this, chunkGo]
  | succ fuel ih =>
    cases l with
    | nil => simp [chunkGo]
    | cons x xs =>
      have hlen : (xs.drop n).length ≤ fuel := by
        simp only [List.length_drop]
        simp only [List.length_cons] at h
        omega
      simp only [chunkGo, List.flatten_cons, ih _ hlen, List.cons_append,
        List.take_append_drop]

lemma chunkGo_map_length (fuel : Nat) (l : List α) (n : Nat) (h : l.length ≤ fuel) :
    (chunkGo fuel l n).map List.length =
      List.replicate (l.length / (n + 1)) (n + 1) ++
        (if l.length % (n + 1) = 0 then [] else [l.length % (n + 1)]) := by
  induction fuel generalizing l with
  | zero =>
    have : l = [] := List.eq_nil_of_length_eq_zero (Nat.le_zero.mp h)
    simp [this, chunkGo]
  | succ fuel ih =>
    cases l with
    | nil => simp [chunkGo]
    | cons x xs =>
      simp only [List.length_cons] at h
      by_cases hsmall : xs.length < n
      · have hdrop : xs.drop n = [] := List.drop_eq_nil_of_le (le_of_lt hsmall)
        have htake : xs.take n = xs := List.take_of_length_le (le_of_lt hsmall)
        have hdiv : (xs.length + 1) / (n + 1) = 0 := Nat.div_eq_of_lt (by omega)
        have hmod : (xs.length + 1) % (n + 1) = xs.length + 1 :=
          Nat.mod_eq_of_lt (by omega)
        simp [chunkGo, hdrop, htake, hdiv, hmod, chunkGo_nil]
      · push_neg at hsmall
        by_cases heq : xs.length = n
        · have hdrop : xs.drop n = [] := List.drop_eq_nil_of_le (le_of_eq heq)
          have htake : (xs.take n).length = n := by
            simp [List.length_take, heq]
          have hdiv : (xs.length + 1) / (n + 1) = 1 := by
            rw [heq]; exact Nat.div_self (Nat.succ_pos n)
          have hmod : (xs.length + 1) % (n + 1) = 0 := by
            rw [heq]; exact Nat.mod_self (n + 1)
          simp [chunkGo, hdrop, chunkGo_nil, hdiv, hmod, htake]
        · have hlt : n < xs.length := lt_of_le_of_ne hsmall (Ne.symm heq)
          have hlen : (xs.drop n).length ≤ fuel := by
            simp only [List.length_drop]; omega
          have hle : n + 1 ≤ xs.length + 1 := by omega
          have hsub : xs.length + 1 - (n + 1) = xs.length - n := by omega
          have hdiv : (xs.length + 1) / (n + 1) = (xs.length - n) / (n + 1) + 1 := by
            rw [Nat.div_eq_sub_div (Nat.succ_pos n) hle, hsub]
          have hmod : (xs.length + 1) % (n + 1) = (xs.length - n) % (n + 1) := by
            rw [Nat.mod_eq_sub_mod hle, hsub]
          have htake : (xs.take n).length = n := by
            simp [List.length_take]; omega
          simp only [chunkGo, List.map_cons, ih _ hlen, List.length_cons, htake,
            List.length_drop, hdiv, hmod, List.replicate_succ, List.cons_append]

lemma chunkGo_ne_nil (fuel : Nat) (l : List α) (n : Nat) :
    ∀ b ∈ chunkGo fuel l n, b ≠ [] := by
  induction fuel generalizing l with
  | zero => simp [chunkGo]
  | succ fuel ih =>
    cases l with
    | nil => simp [chunkGo]
    | cons x xs =>
      intro b hb
      simp only [chunkGo, List.mem_cons] at hb
      rcases hb with rfl | hb
      · simp
      · exact ih _ b hb

lemma chunkArray_flatten (l : List α) : (chunkArray l 500).flatten = l :=
  chunkGo_flatten _ _ _ le_rfl

lemma chunkArray_map_length (l : List α) :
    (chunkArray l 500).map List.length =
      List.replicate (l.length / 500) 500 ++
        (if l.length % 500 = 0 then [] else [l.length % 500]) :=
  chunkGo_map_length _ _ _ le_rfl

/-! ## Normalization lemmas -/

lemma normalizeOf_eq_self {l : List String} (hnd : l.Nodup)
    (hne : ∀ t ∈ l, t ≠ "") : normalizeOf l = l := by
  have hfm : (l.map some).filterMap
      (fun e => if jsBool e then e else none) = l := by
    rw [List.filterMap_map]
    have : ∀ t ∈ l, (fun e => if jsBool e then e else none) (some t) = some t := by
      intro t ht
      simp [jsBool, hne t ht]
    calc l.filterMap ((fun e => if jsBool e then e else none) ∘ some)
        = l.filterMap some := List.filterMap_congr (by simpa using this)
      _ = l := by simp
  rw [normalizeOf, normalizeTokens, Option.getD_some, hfm]
  simpa using foldl_setAdd_eq_append (s := []) (by simp) hnd

lemma nodup_normalizeTokens (tokens : Option (List (Option String))) :
    (normalizeTokens tokens).Nodup :=
  nodup_foldl_setAdd List.nodup_nil

lemma mem_normalizeTokens_ne_empty (tokens : Option (List (Option String))) :
    ∀ t ∈ normalizeTokens tokens, t ≠ "" := by
  intro t ht
  rw [normalizeTokens, mem_foldl_setAdd] at ht
  rcases ht with h | h
  · simp at h
  · rcases List.mem_filterMap.mp h with ⟨e, -, he⟩
    rcases e with - | s
    · simp [jsBool] at he
    · by_cases hs : s = ""
      · simp [jsBool, hs] at he
      · simp only [jsBool, hs, bne_iff_ne, ne_eq, not_false_iff, if_pos,
          Option.some_inj] at he
        exact he ▸ hs

/-! ## runBatches lemmas -/

lemma runBatches_length (f : List String → Except String (List SendResult))
    (batches : List (List String)) :
    (runBatches f batches).length = batches.length := by
  induction batches with
  | nil => rfl
  | cons b bs ih => simp [runBatches, ih]

/-! ## C6: fixed-size batching of the recipient list -/

/-- C6: `sendPushToTokens` batches the normalized recipient list into
consecutive slices of at most 500 (concatenating the batches restores the
list, and the batch lengths are `len / 500` full batches of 500 followed by
the remainder if any), with exactly one provider multicast call per batch;
for 1200 unique non-empty tokens this is exactly 3 calls of sizes
500, 500 and 200. -/
theorem sendPushToTokens_batching (tokens : List String) :
    (sendBatchesOf tokens).flatten = normalizeOf tokens
    ∧ (sendBatchesOf tokens).map List.length =
        List.replicate ((normalizeOf tokens).length / 500) 500 ++
          (if (normalizeOf tokens).length % 500 = 0 then []
           else [(normalizeOf tokens).length % 500])
    ∧ (∀ f, (runBatches f (sendBatchesOf tokens)).length = (sendBatchesOf tokens).length)
    ∧ (tokens.Nodup → (∀ t ∈ tokens, t ≠ "") → tokens.length = 1200 →
        (sendBatchesOf tokens).map List.length = [500, 500, 200]
        ∧ ∀ f, (runBatches f (sendBatchesOf tokens)).length = 3) := by
  refine ⟨chunkArray_flatten _, chunkArray_map_length _, fun f => runBatches_length f _, ?_⟩
  intro hnd hne hlen
  have hself : normalizeOf tokens = tokens := normalizeOf_eq_self hnd hne
  have hmap : (sendBatchesOf tokens).map List.length = [500, 500, 200] := by
    rw [sendBatchesOf, chunkArray_map_length, hself, hlen]
    decide
  refine ⟨hmap, fun f => ?_⟩
  have := congrArg List.length hmap
  simpa [runBatches_length] using this

lemma witnessTokens1200_nodup : witnessTokens1200.Nodup := by
  refine List.Nodup.map ?_ (List.nodup_range 1200)
  intro a b hab
  have hdata := congrArg String.data hab
  have := congrArg List.length hdata
  simpa using this

lemma witnessTokens1200_ne : ∀ t ∈ witnessTokens1200, t ≠ "" := by
  intro t ht
  rcases List.mem_map.mp ht with ⟨i, -, rfl⟩
  intro hcon
  have := congrArg List.length (congrArg String.data hcon)
  simp at this

/-- Witness for `sendPushToTokens_batching`: a concrete 1200-token list
yields batch sizes 500 / 500 / 200. -/
theorem sendPushToTokens_batching_witness :
    (sendBatchesOf witnessTokens1200).map List.length = [500, 500, 200] :=
  ((sendPushToTokens_batching witnessTokens1200).2.2.2 witnessTokens1200_nodup
    witnessTokens1200_ne (by simp [witnessTokens1200])).1

/-! ## C8: whole-batch failures are isolated -/

/-- C8: the batch loop of `sendPushToTokens` is a total function (it never
raises to its caller), it attempts every batch — the result list is aligned
one-to-one with the batch list — and the outcome recorded for the i-th
batch depends only on that batch's own provider outcome, so a thrown
(caught and logged) batch send never aborts the remaining batches. -/
theorem sendPushToTokens_batch_isolation
    (f : List String → Except String (List SendResult))
    (batches : List (List String)) (i : Nat) :
    (runBatches f batches).length = batches.length
    ∧ (runBatches f batches)[i]? =
        (batches[i]?).map (fun b =>
          match f b with
          | Except.error e => BatchResult.failed e
          | Except.ok rs => BatchResult.sent (cleanupCalls b rs)) := by
  refine ⟨runBatches_length f batches, ?_⟩
  induction batches generalizing i with
  | nil => simp [runBatches]
  | cons b bs ih =>
    cases i with
    | zero => simp [runBatches]
    | succ j => simpa [runBatches] using ih j

/-! ## C10: defensive normalization before batching -/

/-- C10: `sendPushToTokens` removes falsy entries (missing entries and empty
strings) and collapses duplicates before batching; a null token array
normalizes to the empty list; an empty normalized list produces no provider
call; and every batch actually sent is non-empty, duplicate-free and free
of empty tokens. -/
theorem sendPushToTokens_normalization (tokens : Option (List (Option String))) :
    (normalizeTokens tokens).Nodup
    ∧ "" ∉ normalizeTokens tokens
    ∧ normalizeTokens none = ([] : List String)
    ∧ (normalizeTokens tokens = [] → sendBatches tokens = [])
    ∧ (∀ b ∈ sendBatches tokens, b ≠ [] ∧ b.Nodup ∧ "" ∉ b) := by
  have hflat : (sendBatches tokens).flatten = normalizeTokens tokens :=
    chunkArray_flatten _
  refine ⟨nodup_normalizeTokens tokens,
    fun h => mem_normalizeTokens_ne_empty tokens "" h rfl, rfl, ?_, ?_⟩
  · intro h
    rw [sendBatches, h]
    rfl
  · intro b hb
    have hnodupflat : (sendBatches tokens).flatten.Nodup := by
      rw [hflat]; exact nodup_normalizeTokens tokens
    refine ⟨chunkGo_ne_nil _ _ _ b hb, (List.nodup_flatten.mp hnodupflat).1 b hb, ?_⟩
    intro hmem
    exact mem_normalizeTokens_ne_empty tokens ""
      (hflat ▸ List.mem_flatten.mpr ⟨b, hb, hmem⟩) rfl

/-- Witness for `sendPushToTokens_normalization`: a null token array makes
no provider call, and on the concrete input
`[some "a", none, some "", some "a", some "b"]` the single batch sent is
`["a", "b"]`, non-empty, duplicate-free and free of empty tokens. -/
theorem sendPushToTokens_normalization_witness :
    sendBatches none = []
    ∧ (["a", "b"] ≠ ([] : List String) ∧ (["a", "b"] : List String).Nodup
        ∧ "" ∉ (["a", "b"] : List String)) :=
  ⟨(sendPushToTokens_normalization none).2.2.2.1 rfl,
   (sendPushToTokens_normalization
      (some [some "a", none, some "", some "a", some "b"])).2.2.2.2
     ["a", "b"] (by decide)⟩

/-! ## C7: per-recipient cleanup of invalid tokens -/

lemma cleanupCalls_sublist :
    ∀ (batch : List String) (rs : List SendResult),
      (cleanupCalls batch rs).Sublist batch := by
  intro batch
  induction batch with
  | nil => intro rs; cases rs <;> simp [cleanupCalls]
  | cons t ts ih =>
    intro rs
    cases rs with
    | nil => simp [cleanupCalls]
    | cons r rs' =>
      by_cases h : isPrunableError r
      · simpa [cleanupCalls, h] using List.Sublist.cons₂ t (ih rs')
      · simpa [cleanupCalls, h] using List.Sublist.cons t (ih rs')

/-- C7: in a duplicate-free batch, the response loop issues exactly one
token-store deletion for the i-th recipient when its result is a failure
with code `messaging/invalid-registration-token` or
`messaging/registration-token-not-registered`, and none otherwise —
successes and failures with any other classification trigger no cleanup. -/
theorem sendPushToTokens_cleanup (batch : List String) (rs : List SendResult)
    (hnd : batch.Nodup) (i : Nat) (hib : i < batch.length) (hir : i < rs.length) :
    List.count (batch.get ⟨i, hib⟩) (cleanupCalls batch rs) =
      if isPrunableError (rs.get ⟨i, hir⟩) then 1 else 0 := by
  induction batch generalizing rs i with
  | nil => simp at hib
  | cons t ts ih =>
    cases rs with
    | nil => simp at hir
    | cons r rs' =>
      have hts : t ∉ ts := (List.nodup_cons.mp hnd).1
      cases i with
      | zero =>
        have hnot : t ∉ cleanupCalls ts rs' :=
          fun hmem => hts ((cleanupCalls_sublist ts rs').subset hmem)
        by_cases h : isPrunableError r
        · simp [cleanupCalls, h, List.count_cons_self,
            List.count_eq_zero_of_not_mem hnot]
        · simp [cleanupCalls, h, List.count_eq_zero_of_not_mem hnot]
      | succ j =>
        have hjb : j < ts.length := by simpa using hib
        have hjr : j < rs'.length := by simpa using hir
        have hget : (t :: ts).get ⟨j + 1, hib⟩ = ts.get ⟨j, hjb⟩ := rfl
        have hne : ts.get ⟨j, hjb⟩ ≠ t := by
          intro hcon
          exact hts (hcon ▸ ts.get_mem j hjb)
        have hgetr : (r :: rs').get ⟨j + 1, hir⟩ = rs'.get ⟨j, hjr⟩ := rfl
        rw [hget, hgetr]
        by_cases h : isPrunableError r
        · rw [show cleanupCalls (t :: ts) (r :: rs') = t :: cleanupCalls ts rs' by
            simp [cleanupCalls, h]]
          rw [List.count_cons]
          have hcond : (t == ts.get ⟨j, hjb⟩) = false :=
            beq_eq_false_iff_ne.mpr (Ne.symm hne)
          simp only [hcond, Bool.false_eq_true, if_false, Nat.add_zero]
          exact ih rs' (List.nodup_cons.mp hnd).2 j hjb hjr
        · rw [show cleanupCalls (t :: ts) (r :: rs') = cleanupCalls ts rs' by
            simp [cleanupCalls, h]]
          exact ih rs' (List.nodup_cons.mp hnd).2 j hjb hjr

/-- Witness for `sendPushToTokens_cleanup`: on `demoResponses`, exactly one
cleanup is issued for the invalid-token recipient and none for the success
or the unrelated failure. -/
theorem sendPushToTokens_cleanup_witness :
    List.count "t2" (cleanupCalls ["t1", "t2", "t3"] demoResponses) = 1
    ∧ List.count "t1" (cleanupCalls ["t1", "t2", "t3"] demoResponses) = 0
    ∧ List.count "t3" (cleanupCalls ["t1", "t2", "t3"] demoResponses) = 0 := by
  refine ⟨?_, ?_, ?_⟩
  · exact sendPushToTokens_cleanup ["t1", "t2", "t3"] demoResponses (by decide)
      1 (by decide) (by decide)
  · exact sendPushToTokens_cleanup ["t1", "t2", "t3"] demoResponses (by decide)
      0 (by decide) (by decide)
  · exact sendPushToTokens_cleanup ["t1", "t2", "t3"] demoResponses (by decide)
      2 (by decide) (by decide)

/-! ## C9: chunk-boundary independence of the frame splitter -/

lemma findDelim_le : ∀ (s : List Char) (i : Nat), findDelim s = some i → i + 2 ≤ s.length := by
  intro s
  induction s with
  | nil => intro i h; simp [findDelim] at h
  | cons a tl ih =>
    intro i h
    cases tl with
    | nil => simp [findDelim] at h
    | cons b rest =>
      simp only [findDelim] at h
      by_cases hc : a = NL ∧ b = NL
      · rw [if_pos hc] at h
        cases h
        simp
      · rw [if_neg hc] at h
        rcases Option.map_eq_some'.mp h with ⟨j, hj, hij⟩
        have := ih j hj
        simp only [List.length_cons] at this ⊢
        omega

lemma findDelim_append (t : List Char) :
    ∀ (a : List Char) (i : Nat), findDelim a = some i → findDelim (a ++ t) = some i := by
  intro a
  induction a with
  | nil => intro i h; simp [findDelim] at h
  | cons c tl ih =>
    intro i h
    cases tl with
    | nil => simp [findDelim] at h
    | cons b rest =>
      simp only [findDelim, List.cons_append] at h ⊢
      by_cases hc : c = NL ∧ b = NL
      · rw [if_pos hc] at h ⊢
        exact h
      · rw [if_neg hc] at h ⊢
        rcases Option.map_eq_some'.mp h with ⟨j, hj, hij⟩
        have hrec := ih j hj
        simp only [List.cons_append, List.append_eq] at hrec ⊢
        rw [hrec]
        simpa using hij

lemma splitFramesGo_fuel : ∀ (f1 : Nat) (s : List Char) (f2 : Nat),
    s.length ≤ f1 → s.length ≤ f2 → splitFramesGo f1 s = splitFramesGo f2 s := by
  intro f1
  induction f1 with
  | zero =>
    intro s f2 h1 h2
    have hs : s = [] := List.eq_nil_of_length_eq_zero (Nat.le_zero.mp h1)
    subst hs
    cases f2 <;> simp [splitFramesGo, findDelim]
  | succ f ih =>
    intro s f2 h1 h2
    cases f2 with
    | zero =>
      have hs : s = [] := List.eq_nil_of_length_eq_zero (Nat.le_zero.mp h2)
      subst hs
      simp [splitFramesGo, findDelim]
    | succ g =>
      simp only [splitFramesGo]
      cases hd : findDelim s with
      | none => simp
      | some i =>
        have hle := findDelim_le s i hd
        have hdl : (s.drop (i + 2)).length ≤ f := by
          simp only [List.length_drop]; omega
        have hdg : (s.drop (i + 2)).length ≤ g := by
          simp only [List.length_drop]; omega
        simp only [ih (s.drop (i + 2)) g hdl hdg]

lemma splitFrames_of_none {s : List Char} (h : findDelim s = none) :
    splitFrames s = ([], s) := by
  unfold splitFrames
  cases hl : s.length with
  | zero => simp [splitFramesGo]
  | succ k => simp [splitFramesGo, h]

lemma splitFrames_of_some {s : List Char} {i : Nat} (h : findDelim s = some i) :
    splitFrames s = (s.take i :: (splitFrames (s.drop (i + 2))).1,
      (splitFrames (s.drop (i + 2))).2) := by
  have hle := findDelim_le s i h
  obtain ⟨k, hk⟩ : ∃ k, s.length = k + 1 := ⟨s.length - 1, by omega⟩
  have hfuel : splitFramesGo k (s.drop (i + 2)) = splitFrames (s.drop (i + 2)) := by
    unfold splitFrames
    exact splitFramesGo_fuel k _ _ (by simp only [List.length_drop]; omega) le_rfl
  unfold splitFrames
  rw [hk]
  simp only [splitFramesGo, h, hfuel]
  rfl

lemma findDelim_splitFrames_rem (s : List Char) :
    findDelim (splitFrames s).2 = none := by
  suffices H : ∀ (n : Nat) (s : List Char), s.length ≤ n →
      findDelim (splitFrames s).2 = none from H s.length s le_rfl
  intro n
  induction n with
  | zero =>
    intro s hs
    have : s = [] := List.eq_nil_of_length_eq_zero (Nat.le_zero.mp hs)
    subst this
    rw [splitFrames_of_none (by simp [findDelim])]
    simp [findDelim]
  | succ n ih =>
    intro s hs
    cases hd : findDelim s with
    | none =>
      rw [splitFrames_of_none hd]
      exact hd
    | some i =>
      rw [splitFrames_of_some hd]
      have hle := findDelim_le s i hd
      exact ih (s.drop (i + 2)) (by simp only [List.length_drop]; omega)

lemma splitFrames_append (t : List Char) :
    ∀ (a : List Char), splitFrames (a ++ t) =
      ((splitFrames a).1 ++ (splitFrames ((splitFrames a).2 ++ t)).1,
       (splitFrames ((splitFrames a).2 ++ t)).2) := by
  suffices H : ∀ (n : Nat) (a : List Char), a.length ≤ n →
      splitFrames (a ++ t) =
        ((splitFrames a).1 ++ (splitFrames ((splitFrames a).2 ++ t)).1,
         (splitFrames ((splitFrames a).2 ++ t)).2) from
    fun a => H a.length a le_rfl
  intro n
  induction n with
  | zero =>
    intro a ha
    have : a = [] := List.eq_nil_of_length_eq_zero (Nat.le_zero.mp ha)
    subst this
    have h0 : splitFrames ([] : List Char) = ([], []) := splitFrames_of_none rfl
    simp [h0]
  | succ n ih =>
    intro a ha
    cases hd : findDelim a with
    | none =>
      have h0 : splitFrames a = ([], a) := splitFrames_of_none hd
      simp [h0]
    | some i =>
      have hle := findDelim_le a i hd
      have hd2 : findDelim (a ++ t) = some i := findDelim_append t a i hd
      rw [splitFrames_of_some hd, splitFrames_of_some hd2]
      have htake : (a ++ t).take i = a.take i := by
        rw [List.take_append_eq_append_take,
          show i - a.length = 0 by omega]
        simp
      have hdrop : (a ++ t).drop (i + 2) = a.drop (i + 2) ++ t := by
        rw [List.drop_append_eq_append_drop,
          show i + 2 - a.length = 0 by omega, List.drop_zero]
      rw [htake, hdrop, ih (a.drop (i + 2)) (by simp only [List.length_drop]; omega)]
      simp [List.cons_append]

lemma foldl_sseStep (chunks : List (List Char)) :
    ∀ (fs : List (List Char)) (b : List Char), findDelim b = none →
      chunks.foldl sseStep (fs, b) =
        (fs ++ (splitFrames (b ++ chunks.flatten)).1,
         (splitFrames (b ++ chunks.flatten)).2) := by
  induction chunks with
  | nil =>
    intro fs b hb
    simp [splitFrames_of_none hb]
  | cons c cs ih =>
    intro fs b hb
    rw [List.foldl_cons,
      show sseStep (fs, b) c =
        (fs ++ (splitFrames (b ++ c)).1, (splitFrames (b ++ c)).2) from rfl,
      ih _ _ (findDelim_splitFrames_rem _), List.flatten_cons,
      ← List.append_assoc b c cs.flatten,
      splitFrames_append cs.flatten (b ++ c)]
    simp [List.append_assoc]

/-- C9: the frame-splitting logic of the SSE read loop emits the same frame
sequence (and leaves the same trailing buffer) for every partitioning of the
input into chunks as when the whole input arrives as one chunk. -/
theorem sseFrameSplitting_chunk_invariance (chunks : List (List Char)) :
    processSSE chunks = processSSE [chunks.flatten] := by
  rw [processSSE, processSSE,
    foldl_sseStep chunks [] [] (by simp [findDelim]),
    foldl_sseStep [chunks.flatten] [] [] (by simp [findDelim])]
  simp

/-! ## C3: handling of multiple data: lines in one frame (corrected) -/

lemma splitLines_append_cons {l : List Char} (rest : List Char) (h : NL ∉ l) :
    splitLines (l ++ NL :: rest) = l :: splitLines rest := by
  induction l with
  | nil => simp [splitLines]
  | cons c tl ih =>
    have hc : ¬ c = NL := fun hcon => h (hcon ▸ List.mem_cons_self c tl)
    have htl : NL ∉ tl := fun hmem => h (List.mem_cons_of_mem c hmem)
    rw [List.cons_append, splitLines, if_neg hc, ih htl]

lemma legacyStep_data (lines : List (List Char)) :
    ∀ acc : Option (List Char) × List Char,
      (lines.foldl legacyStep acc).2 =
        acc.2 ++ (lines.map (fun l =>
          if startsWithL l dataTag then trimL (replaceFirstL l dataTag [])
          else [])).flatten := by
  induction lines with
  | nil => intro acc; simp
  | cons l ls ih =>
    intro acc
    have h2 : (legacyStep acc l).2 =
        acc.2 ++ (if startsWithL l dataTag then trimL (replaceFirstL l dataTag [])
                  else []) := by
      by_cases h : startsWithL l dataTag <;> simp [legacyStep, h]
    rw [List.foldl_cons, ih, h2]
    simp [List.append_assoc]

/-- C3 counterexample: on the two-data-line frame `data:A\ndata:B`, the
patched loop's payload is `A` — only the first `data:` line — not the
in-order concatenation `AB` that the claim requires (and that the legacy
loop computes). -/
theorem sseDataLines_counterexample :
    extractPayloadPatched ("data:A\ndata:B".data) = some ("A".data)
    ∧ "A".data ≠ "AB".data
    ∧ (legacyFields ("data:A\ndata:B".data)).2 = "AB".data := by
  refine ⟨by decide, by decide, by decide⟩

/-- C3 amended: within one frame, the legacy read loop concatenates the
stripped contents of every trimmed `data:` line in order into the payload,
but the patched read loop takes only the first `data:` line — its payload
is that line's stripped content regardless of everything after the line. -/
theorem sseDataLines_corrected :
    (∀ raw : List Char, (legacyFields raw).2 =
        (((splitLines raw).map trimL).map (fun l =>
          if startsWithL l dataTag then trimL (replaceFirstL l dataTag [])
          else [])).flatten)
    ∧ (∀ l rest : List Char, NL ∉ l → startsWithL l dataTag = true →
        extractPayloadPatched (l ++ NL :: rest) =
          some (trimL (replaceFirstL l dataTag []))) := by
  constructor
  · intro raw
    rw [legacyFields, legacyStep_data]
    simp
  · intro l rest hnl hstart
    have hfind : List.find? (fun x => startsWithL x dataTag) (l :: splitLines rest) =
        some l := List.find?_cons_of_pos _ hstart
    rw [extractPayloadPatched, splitLines_append_cons rest hnl, hfind,
      Option.map_some']

/-- Witness for `sseDataLines_corrected` on the frame `data:A\ndata:B`. -/
theorem sseDataLines_corrected_witness :
    extractPayloadPatched ("data:A".data ++ NL :: "data:B".data) =
      some (trimL (replaceFirstL ("data:A".data) dataTag [])) :=
  sseDataLines_corrected.2 ("data:A".data) ("data:B".data) (by decide) (by decide)

/-! ## C4: which frames reach handleLeadEvent (corrected) -/

/-- C4 counterexample: the frame `event: other` with JSON payload
`{"t":1}` — whose `event:` field is `other` and whose payload carries no
`lead` type (the parsed payload's `type` field, supplied explicitly, is
absent) — is nevertheless handed to `handleLeadEvent` by the patched read
loop, which checks no event type at all. -/
theorem sseDispatch_counterexample :
    patchedInvokesHandler ("event: other\ndata: \x7b\"t\":1\x7d".data) = true
    ∧ (legacyFields (trimL ("event: other\ndata: \x7b\"t\":1\x7d".data))).1 =
        some ("other".data)
    ∧ ¬((legacyFields (trimL ("event: other\ndata: \x7b\"t\":1\x7d".data))).1 =
          some ("lead".data)
        ∨ (none : Option (List Char)) = some ("lead".data)) := by
  refine ⟨by decide, by decide, by decide⟩

/-- C4 amended: only the legacy read loop restricts dispatch to lead-typed
frames — whenever it invokes the handler, the frame's `event:` field or the
payload's embedded `type` field equals `lead`; the patched read loop invokes
the handler for every frame whose extracted payload is non-empty and starts
with `{` (given that it parses as JSON), with no event-type condition. -/
theorem sseDispatch_corrected :
    (∀ (raw : List Char) (parsedType : Option (List Char)),
        legacyInvokesHandler raw parsedType = true →
          (legacyFields (trimL raw)).1 = some ("lead".data)
          ∨ parsedType = some ("lead".data))
    ∧ (∀ (frame p : List Char), extractPayloadPatched (trimL frame) = some p →
        p.isEmpty = false → startsWithL p jsonOpen = true →
        patchedInvokesHandler frame = true) := by
  constructor
  · intro raw parsedType h
    simp only [legacyInvokesHandler, Bool.and_eq_true, Bool.or_eq_true,
      beq_iff_eq] at h
    exact h.2
  · intro frame p hp hne hstart
    have hframe : (trimL frame).isEmpty = false := by
      cases hemp : (trimL frame).isEmpty
      · rfl
      · rw [List.isEmpty_iff.mp hemp] at hp
        simp [extractPayloadPatched, splitLines, startsWithL, dataTag,
          List.isPrefixOf] at hp
    simp only [patchedInvokesHandler, hframe, Bool.false_eq_true, if_false, hp,
      hne, hstart, Bool.not_false, Bool.and_self]

/-- Witness for `sseDispatch_corrected`: a `lead`-typed frame accepted by the
legacy loop, and a frame with a JSON-object payload dispatched by the
patched loop. -/
theorem sseDispatch_corrected_witness :
    ((legacyFields (trimL ("event: lead\ndata: \x7b\"a\":1\x7d".data))).1 =
        some ("lead".data)
      ∨ (none : Option (List Char)) = some ("lead".data))
    ∧ patchedInvokesHandler ("event: lead\ndata: \x7b\"a\":1\x7d".data) = true :=
  ⟨sseDispatch_corrected.1 ("event: lead\ndata: \x7b\"a\":1\x7d".data) none (by decide),
   sseDispatch_corrected.2 ("event: lead\ndata: \x7b\"a\":1\x7d".data)
     ("\x7b\"a\":1\x7d".data) (by decide) (by decide) (by decide)⟩

end Catination
